import Mathlib

/-!
Verification development for the silence-detection and segmentation engine of
the pdf-to-video repository (src/separate_audios.py).

Modelling conventions:
* Audio is decoded sample data: a list of sample frames (rows), each row a list
  of per-channel rational values.  All float arithmetic of the source is
  modelled exactly over the rationals.
* Python `int(x)` truncates toward zero; `math.ceil`/`math.floor` are the usual
  ceiling/floor.  These are modelled by pyInt, Int.ceil and Int.floor.
* The source computes `rms = sqrt(mean(square(window)))` per window.  Square
  roots of rationals are irrational in general, so energy windows carry the
  mean square (rms squared) instead.  The square root is strictly monotone on
  the nonnegatives, hence every equality or threshold comparison of RMS values
  corresponds exactly to the same comparison of mean squares (with a squared
  threshold), and every claim about the RMS sequences transfers verbatim.
* Functions that can raise in Python return Except String.
-/

/-- Models Python int conversion applied to a rational value: truncation toward
zero (floor for nonnegative arguments, ceiling for negative ones). -/
def pyInt (q : ℚ) : ℤ := if 0 ≤ q then ⌊q⌋ else ⌈q⌉

/-- Models the shared window-size computation
window_size = max(1, int(fps * (frame_ms / 1000.0)))
of compute_rms_windows (line 31) and compute_rms_windows_streaming (line 61)
in src/separate_audios.py. -/
def window_size (fps : ℕ) (frame_ms : ℚ) : ℕ :=
  max 1 (pyInt ((fps : ℚ) * (frame_ms / 1000))).toNat

/-- Sum of squares of all entries of a block of sample rows. -/
def sumSq (w : List (List ℚ)) : ℚ :=
  (w.map (fun row => (row.map (fun x => x * x)).sum)).sum

/-- Number of scalar entries of a block of sample rows. -/
def numEntries (w : List (List ℚ)) : ℕ := (w.map List.length).sum

/-- Mean of squares over all samples and channels of one window jointly:
models np.mean(np.square(windows), axis=(1, 2)) for a single window
(line 45 of src/separate_audios.py).  The source then takes the square root to
obtain the RMS; windows carry the mean square as explained in the header. -/
def meanSq (w : List (List ℚ)) : ℚ := sumSq w / (numEntries w : ℚ)

/-- Splits a buffer of rows into consecutive windows of exactly W rows,
dropping a trailing remainder shorter than W.  The fuel argument (always
instantiated with the buffer length) only bounds the recursion depth; one
window of W rows is sliced off per step while at least W rows remain.  This is
the window structure shared by the reshape in compute_rms_windows (line 43)
and the while loop in compute_rms_windows_streaming (lines 90-95). -/
def toWindows (W : ℕ) : ℕ → List (List ℚ) → List (List (List ℚ))
  | 0, _ => []
  | fuel + 1, l =>
    if W ≤ l.length ∧ 0 < W then l.take W :: toWindows W fuel (l.drop W)
    else []

/-- The rows left over after slicing off all complete W-row windows; companion
of toWindows with the same fuel discipline. -/
def toRest (W : ℕ) : ℕ → List (List ℚ) → List (List ℚ)
  | 0, l => l
  | fuel + 1, l =>
    if W ≤ l.length ∧ 0 < W then toRest W fuel (l.drop W)
    else l

/-- The mean-square values of all complete W-row windows of a buffer. -/
def windowsOf (W : ℕ) (l : List (List ℚ)) : List ℚ :=
  (toWindows W l.length l).map meanSq

/-- The carry-over left after popping all complete W-row windows of a buffer. -/
def restOf (W : ℕ) (l : List (List ℚ)) : List (List ℚ) :=
  toRest W l.length l

/-- Models compute_rms_windows (src/separate_audios.py lines 11-47): fixed-size
windowing of a whole 2-D sample array.  The array audio is a list of sample
rows (already 2-D, matching the audio[:, None] normalization for mono input).
Mirrors the source: the (dead) configuration check on window_size, the early
return of ([], frame_ms / 1000) when no complete window fits, and otherwise
the reshape of the usable prefix into n_windows windows of window_size rows
with one mean-square energy value per window and window duration
window_size / fps. -/
def compute_rms_windows (audio : List (List ℚ)) (fps : ℕ) (frame_ms : ℚ) :
    Except String (List ℚ × ℚ) :=
  let W := window_size fps frame_ms
  if W ≤ 0 then Except.error "frame_ms muito pequeno para o fps fornecido"
  else
    let total_samples := audio.length
    let n_windows := total_samples / W
    let usable := n_windows * W
    if usable = 0 then Except.ok ([], frame_ms / 1000)
    else
      let trimmed := audio.take usable
      Except.ok ((toWindows W trimmed.length trimmed).map meanSq, (W : ℚ) / (fps : ℚ))

/-- Models the inner while loop of compute_rms_windows_streaming (lines 90-95):
while the buffer holds at least window_size rows, slice off one window, record
its energy and keep the remainder.  The fuel argument is instantiated with the
buffer length, which bounds the number of iterations since window_size ≥ 1 in
every call (the source would not terminate otherwise). -/
def popLoop (W : ℕ) : ℕ → List (List ℚ) → List ℚ × List (List ℚ)
  | 0, buffer => ([], buffer)
  | fuel + 1, buffer =>
    if W ≤ buffer.length ∧ 0 < W then
      let r := meanSq (buffer.take W)
      let rest := popLoop W fuel (buffer.drop W)
      (r :: rest.1, rest.2)
    else ([], buffer)

/-- Models one iteration of the chunk loop of compute_rms_windows_streaming
(lines 72-95): a chunk with zero scalar entries is skipped (chunk.size == 0),
otherwise it is appended to the carry-over buffer and all complete windows are
popped.  The state is (rms values emitted so far, carry-over buffer). -/
def streamStep (W : ℕ) (st : List ℚ × List (List ℚ)) (chunk : List (List ℚ)) :
    List ℚ × List (List ℚ) :=
  if (chunk.map List.length).sum = 0 then st
  else
    let buffer := st.2 ++ chunk
    let popped := popLoop W buffer.length buffer
    (st.1 ++ popped.1, popped.2)

/-- Models compute_rms_windows_streaming (src/separate_audios.py lines 50-98):
the chunked, streaming variant of the windowing.  The chunk sequence is the
sample data yielded by clip.iter_chunks, each chunk a 2-D block of sample
rows (matching the chunk[:, None] normalization for mono chunks; a None chunk
is never materialized in the model).  Returns the energy value sequence and
the window duration window_size / fps. -/
def compute_rms_windows_streaming (chunks : List (List (List ℚ))) (fps : ℕ)
    (frame_ms : ℚ) : Except String (List ℚ × ℚ) :=
  let W := window_size fps frame_ms
  if W ≤ 0 then Except.error "frame_ms muito pequeno para o fps fornecido"
  else
    let final := chunks.foldl (streamStep W) ([], [])
    Except.ok (final.1, (W : ℚ) / (fps : ℚ))

/-- Models the run-grouping loop of detect_silences_from_rms (lines 178-189 of
src/separate_audios.py): scan the silent mask left to right with the current
index and the optional start of the open run, emitting maximal half-open index
intervals of consecutive true entries. -/
def groupRunsAux : List Bool → ℕ → Option ℕ → List (ℕ × ℕ)
  | [], _, none => []
  | [], i, some s => [(s, i)]
  | b :: rest, i, none =>
    if b then groupRunsAux rest (i + 1) (some i) else groupRunsAux rest (i + 1) none
  | b :: rest, i, some s =>
    if b then groupRunsAux rest (i + 1) (some s)
    else (s, i) :: groupRunsAux rest (i + 1) none

/-- Models the merge loop of detect_silences_from_rms (lines 199-208): cur is
the run currently being extended; a following run whose gap to cur (in
non-silent windows) is at most gap_windows is absorbed, otherwise cur is
emitted and the following run becomes current. -/
def mergeRunsAux (gap_windows : ℤ) : List (ℕ × ℕ) → ℕ × ℕ → List (ℕ × ℕ)
  | [], cur => [cur]
  | (s, e) :: rest, cur =>
    if (s : ℤ) - (cur.2 : ℤ) ≤ gap_windows then mergeRunsAux gap_windows rest (cur.1, e)
    else cur :: mergeRunsAux gap_windows rest (s, e)

/-- Models detect_silences_from_rms (src/separate_audios.py lines 161-210):
threshold classification (inclusive), run grouping, minimum-duration filter
with min_windows = ceil(min_silence_sec / win_sec), merging of runs separated
by at most floor(merge_gap_sec / win_sec) non-silent windows, and conversion
of window indices to seconds. -/
def detect_silences_from_rms (rms : List ℚ) (win_sec : ℚ) (min_silence_sec : ℚ)
    (silence_rms_thresh : ℚ) (merge_gap_sec : ℚ) : List (ℚ × ℚ) :=
  if rms.isEmpty then []
  else
    let silent_mask := rms.map (fun r => decide (r ≤ silence_rms_thresh))
    let silences := groupRunsAux silent_mask 0 none
    let min_windows : ℤ := ⌈min_silence_sec / win_sec⌉
    let filtered := silences.filter (fun se => decide (min_windows ≤ (se.2 : ℤ) - (se.1 : ℤ)))
    match filtered with
    | [] => []
    | first :: rest =>
      let gap_windows : ℤ := ⌊merge_gap_sec / win_sec⌋
      let merged := mergeRunsAux gap_windows rest first
      merged.map (fun se => ((se.1 : ℚ) * win_sec, (se.2 : ℚ) * win_sec))

/-- Models the for loop of split_points_from_silences (lines 231-244 of
src/separate_audios.py).  State: the emitted points and prev, the end of the
speech stretch before the current silence.  Each silence yields a candidate
segment [max(0, prev - max(0, start_pad)) clamped to the last emitted end,
min(duration, s_start + max(0, end_pad))], appended only when longer than
1e-3. -/
def splitLoop (duration start_pad end_pad : ℚ) :
    List (ℚ × ℚ) → List (ℚ × ℚ) → ℚ → List (ℚ × ℚ) × ℚ
  | [], points, prev => (points, prev)
  | (s_start, s_end) :: rest, points, prev =>
    let seg_end := min duration (s_start + max 0 end_pad)
    let seg_start0 := max 0 (prev - max 0 start_pad)
    let seg_start :=
      match points.getLast? with
      | some p => max seg_start0 p.2
      | none => seg_start0
    let points2 :=
      if 1 / 1000 < seg_end - seg_start then points ++ [(seg_start, seg_end)] else points
    splitLoop duration start_pad end_pad rest points2 (max prev s_end)

/-- Models the trailing-segment step of split_points_from_silences
(lines 246-253): after the loop, if prev < duration, a final segment up to
duration is appended under the same clamping and minimum-length rules. -/
def splitFinish (duration start_pad : ℚ) (st : List (ℚ × ℚ) × ℚ) : List (ℚ × ℚ) :=
  if st.2 < duration then
    let seg_start0 := max 0 (st.2 - max 0 start_pad)
    let seg_start :=
      match st.1.getLast? with
      | some p => max seg_start0 p.2
      | none => seg_start0
    if 1 / 1000 < duration - seg_start then st.1 ++ [(seg_start, duration)] else st.1
  else st.1

/-- Models split_points_from_silences (src/separate_audios.py lines 213-255):
conversion of detected silences into speech segments.  With no silences, a
single padded segment covering the whole stream is emitted subject to the
1e-3 minimum-length check; otherwise the loop and the trailing step run. -/
def split_points_from_silences (duration : ℚ) (silences : List (ℚ × ℚ))
    (start_pad : ℚ) (end_pad : ℚ) : List (ℚ × ℚ) :=
  if silences.isEmpty then
    let seg_start := max 0 (0 - start_pad)
    let seg_end := min duration (duration + end_pad)
    if seg_end - seg_start ≤ 1 / 1000 then [] else [(seg_start, seg_end)]
  else splitFinish duration start_pad (splitLoop duration start_pad end_pad silences [] 0)

/-- Models the module-level args_holder global of src/separate_audios.py
(set by main at lines 402-404 from the parsed command line): the full bundle
of CLI-derived settings available to helper functions. -/
structure ArgsHolder where
  min_silence_sec : ℚ
  silence_threshold : ℚ
  frame_ms : ℚ
  merge_gap_sec : ℚ
  detection_fps : ℕ
  start_pad : ℚ
  end_pad : ℚ
  dry_run : Bool

/-- Models the opened audio source of process_file: its decoded sample chunks
(as yielded by iter_chunks), its total duration in seconds and its native
sample rate. -/
structure AudioClip where
  chunks : List (List (List ℚ))
  duration : ℚ
  fps : ℕ

/-- Models the analysis portion of process_file (src/separate_audios.py lines
283-311): streaming RMS windowing at the detection sample rate (the Python
expression target_detection_fps or clip.fps maps 0 and None to the clip rate),
silence detection, and boundary resolution.  The padding values are read from
the module-level args_holder global (lines 309-310), not from the explicit
arguments.  The silence threshold is squared because windows carry mean
squares (see header); export and printing are I/O effects outside the model,
so the returned value is the resolved segment boundary list and dry_run does
not influence it. -/
def process_file (clip : AudioClip)
    (min_silence_sec silence_rms_thresh frame_ms merge_gap_sec : ℚ)
    (target_detection_fps : Option ℕ) (dry_run : Bool) (args_holder : ArgsHolder) :
    Except String (List (ℚ × ℚ)) :=
  let det_fps : ℕ :=
    match target_detection_fps with
    | some n => if n = 0 then clip.fps else n
    | none => clip.fps
  match compute_rms_windows_streaming clip.chunks det_fps frame_ms with
  | Except.error e => Except.error e
  | Except.ok rmswin =>
    let silences := detect_silences_from_rms rmswin.1 rmswin.2 min_silence_sec
      (silence_rms_thresh * silence_rms_thresh) merge_gap_sec
    Except.ok (split_points_from_silences clip.duration silences
      args_holder.start_pad args_holder.end_pad)

/-- Total length of a list of (start, end) intervals: the sum of end - start. -/
def ivalSum (l : List (ℚ × ℚ)) : ℚ := (l.map (fun p => p.2 - p.1)).sum

/-- The silence list is sorted, the intervals are ordered and lie inside
[prev, duration]: the well-formedness of a silence list relative to the end
prev of the already consumed timeline. -/
def SilChain (duration : ℚ) : ℚ → List (ℚ × ℚ) → Prop
  | _, [] => True
  | prev, (s, e) :: rest => prev ≤ s ∧ s ≤ e ∧ e ≤ duration ∧ SilChain duration e rest

/-- Every speech gap left between prev, the silences and duration is either
empty or longer than the 1e-3 minimum segment length. -/
def GapsOK (duration : ℚ) : ℚ → List (ℚ × ℚ) → Prop
  | prev, [] => duration - prev = 0 ∨ 1 / 1000 < duration - prev
  | prev, (s, e) :: rest => (s - prev = 0 ∨ 1 / 1000 < s - prev) ∧ GapsOK duration e rest

/-- Invariant of the emitted segment list of split_points_from_silences:
every segment starts at or after 0, is longer than 1e-3 and ends at or before
duration; segments are pairwise non-overlapping; and every segment ends at or
before the last emitted segment's end. -/
def GoodPts (duration : ℚ) (pts : List (ℚ × ℚ)) : Prop :=
  (∀ p ∈ pts, 0 ≤ p.1 ∧ 1 / 1000 < p.2 - p.1 ∧ p.2 ≤ duration) ∧
  pts.Pairwise (fun p q => p.2 ≤ q.1) ∧
  ∀ q ∈ pts.getLast?, ∀ p ∈ pts, p.2 ≤ q.2

theorem window_size_pos (fps : ℕ) (frame_ms : ℚ) : 0 < window_size fps frame_ms :=
  Nat.lt_of_lt_of_le Nat.zero_lt_one (le_max_left 1 _)

theorem toWindows_fuel (W : ℕ) : ∀ (f g : ℕ) (l : List (List ℚ)),
    l.length ≤ f → l.length ≤ g → toWindows W f l = toWindows W g l := by
  intro f
  induction f with
  | zero =>
    intro g l hf hg
    have hl : l = [] := List.eq_nil_of_length_eq_zero (Nat.le_zero.mp hf)
    subst hl
    cases g with
    | zero => rfl
    | succ g =>
      simp only [toWindows]
      rw [if_neg (by simp only [List.length_nil]; omega)]
  | succ f ih =>
    intro g l hf hg
    cases g with
    | zero =>
      have hl : l = [] := List.eq_nil_of_length_eq_zero (Nat.le_zero.mp hg)
      subst hl
      simp only [toWindows]
      rw [if_neg (by simp only [List.length_nil]; omega)]
    | succ g =>
      simp only [toWindows]
      by_cases h : W ≤ l.length ∧ 0 < W
      · rw [if_pos h, if_pos h,
          ih g (l.drop W) (by simp only [List.length_drop]; omega)
            (by simp only [List.length_drop]; omega)]
      · rw [if_neg h, if_neg h]

theorem toRest_fuel (W : ℕ) : ∀ (f g : ℕ) (l : List (List ℚ)),
    l.length ≤ f → l.length ≤ g → toRest W f l = toRest W g l := by
  intro f
  induction f with
  | zero =>
    intro g l hf hg
    have hl : l = [] := List.eq_nil_of_length_eq_zero (Nat.le_zero.mp hf)
    subst hl
    cases g with
    | zero => rfl
    | succ g =>
      simp only [toRest]
      rw [if_neg (by simp only [List.length_nil]; omega)]
  | succ f ih =>
    intro g l hf hg
    cases g with
    | zero =>
      have hl : l = [] := List.eq_nil_of_length_eq_zero (Nat.le_zero.mp hg)
      subst hl
      simp only [toRest]
      rw [if_neg (by simp only [List.length_nil]; omega)]
    | succ g =>
      simp only [toRest]
      by_cases h : W ≤ l.length ∧ 0 < W
      · rw [if_pos h, if_pos h,
          ih g (l.drop W) (by simp only [List.length_drop]; omega)
            (by simp only [List.length_drop]; omega)]
      · rw [if_neg h, if_neg h]

theorem windowsOf_step (W : ℕ) (l : List (List ℚ)) (hW : 0 < W) (h : W ≤ l.length) :
    windowsOf W l = meanSq (l.take W) :: windowsOf W (l.drop W) := by
  unfold windowsOf
  obtain ⟨f, hf⟩ : ∃ f, l.length = f + 1 := ⟨l.length - 1, by omega⟩
  rw [toWindows_fuel W l.length (f + 1) l (le_refl _) (by omega)]
  simp only [toWindows]
  rw [if_pos ⟨h, hW⟩, List.map_cons]
  congr 1
  rw [toWindows_fuel W f (l.drop W).length (l.drop W)
    (by simp only [List.length_drop]; omega) (le_refl _)]

theorem windowsOf_small (W : ℕ) (l : List (List ℚ)) (h : l.length < W) :
    windowsOf W l = [] := by
  unfold windowsOf
  cases hn : l.length with
  | zero => rfl
  | succ f =>
    simp only [toWindows]
    rw [if_neg (by omega)]
    rfl

theorem restOf_step (W : ℕ) (l : List (List ℚ)) (hW : 0 < W) (h : W ≤ l.length) :
    restOf W l = restOf W (l.drop W) := by
  unfold restOf
  obtain ⟨f, hf⟩ : ∃ f, l.length = f + 1 := ⟨l.length - 1, by omega⟩
  rw [toRest_fuel W l.length (f + 1) l (le_refl _) (by omega)]
  simp only [toRest]
  rw [if_pos ⟨h, hW⟩]
  rw [toRest_fuel W f (l.drop W).length (l.drop W)
    (by simp only [List.length_drop]; omega) (le_refl _)]

theorem restOf_small (W : ℕ) (l : List (List ℚ)) (h : l.length < W) :
    restOf W l = l := by
  unfold restOf
  cases hn : l.length with
  | zero => rfl
  | succ f =>
    simp only [toRest]
    rw [if_neg (by omega)]

theorem popLoop_eq (W : ℕ) : ∀ (f : ℕ) (l : List (List ℚ)),
    popLoop W f l = ((toWindows W f l).map meanSq, toRest W f l) := by
  intro f
  induction f with
  | zero => intro l; rfl
  | succ f ih =>
    intro l
    simp only [popLoop, toWindows, toRest]
    by_cases h : W ≤ l.length ∧ 0 < W
    · rw [if_pos h, if_pos h, if_pos h, ih (l.drop W), List.map_cons]
    · rw [if_neg h, if_neg h, if_neg h, List.map_nil]

theorem restOf_length_lt_aux (W : ℕ) (hW : 0 < W) : ∀ (n : ℕ) (l : List (List ℚ)),
    l.length ≤ n → (restOf W l).length < W := by
  intro n
  induction n with
  | zero =>
    intro l h
    rw [restOf_small W l (by omega)]
    omega
  | succ n ih =>
    intro l h
    by_cases hc : W ≤ l.length
    · rw [restOf_step W l hW hc]
      exact ih _ (by simp only [List.length_drop]; omega)
    · rw [restOf_small W l (by omega)]
      omega

theorem restOf_length_lt (W : ℕ) (hW : 0 < W) (l : List (List ℚ)) :
    (restOf W l).length < W :=
  restOf_length_lt_aux W hW l.length l (le_refl _)

theorem windowsOf_length_aux (W : ℕ) (hW : 0 < W) : ∀ (n : ℕ) (l : List (List ℚ)),
    l.length ≤ n → (windowsOf W l).length = l.length / W := by
  intro n
  induction n with
  | zero =>
    intro l h
    rw [windowsOf_small W l (by omega)]
    have : l.length = 0 := by omega
    simp [this]
  | succ n ih =>
    intro l h
    by_cases hc : W ≤ l.length
    · rw [windowsOf_step W l hW hc, List.length_cons,
        ih _ (by simp only [List.length_drop]; omega)]
      have h2 := Nat.add_div_right (l.length - W) hW
      rw [Nat.sub_add_cancel hc] at h2
      simp only [List.length_drop]
      exact h2.symm
    · rw [windowsOf_small W l (by omega)]
      rw [Nat.div_eq_of_lt (by omega)]
      rfl

theorem windowsOf_length (W : ℕ) (hW : 0 < W) (l : List (List ℚ)) :
    (windowsOf W l).length = l.length / W :=
  windowsOf_length_aux W hW l.length l (le_refl _)

theorem windowsOf_take_full_aux (W : ℕ) (hW : 0 < W) : ∀ (n : ℕ) (l : List (List ℚ)),
    l.length ≤ n → windowsOf W (l.take (l.length / W * W)) = windowsOf W l := by
  intro n
  induction n with
  | zero =>
    intro l h
    have hl : l = [] := List.eq_nil_of_length_eq_zero (Nat.le_zero.mp h)
    subst hl
    simp only [List.take_nil]
  | succ n ih =>
    intro l h
    by_cases hc : W ≤ l.length
    · have hdiv1 : 1 ≤ l.length / W := (Nat.one_le_div_iff hW).mpr hc
      have husable_le : l.length / W * W ≤ l.length := Nat.div_mul_le_self _ _
      have hWt : W ≤ (l.take (l.length / W * W)).length := by
        rw [List.length_take]
        have : W ≤ l.length / W * W := by
          calc W = 1 * W := (Nat.one_mul W).symm
          _ ≤ l.length / W * W := Nat.mul_le_mul_right W hdiv1
        omega
      rw [windowsOf_step W _ hW hWt, windowsOf_step W l hW hc]
      have hdd := Nat.add_div_right (l.length - W) hW
      rw [Nat.sub_add_cancel hc] at hdd
      congr 1
      · congr 1
        rw [List.take_take]
        congr 1
        have : W ≤ l.length / W * W := by
          calc W = 1 * W := (Nat.one_mul W).symm
          _ ≤ l.length / W * W := Nat.mul_le_mul_right W hdiv1
        omega
      · rw [List.drop_take]
        have harith : l.length / W * W - W = (l.length - W) / W * W := by
          rw [hdd, Nat.succ_mul, Nat.add_sub_cancel]
        rw [harith]
        have hlen : (l.drop W).length = l.length - W := by
          simp only [List.length_drop]
        rw [← hlen]
        exact ih (l.drop W) (by simp only [List.length_drop]; omega)
    · have hlt : l.length < W := by omega
      have hdiv0 : l.length / W = 0 := Nat.div_eq_of_lt hlt
      rw [hdiv0, Nat.zero_mul, List.take_zero]
      rw [windowsOf_small W l hlt]
      rfl

theorem windowsOf_take_full (W : ℕ) (hW : 0 < W) (l : List (List ℚ)) :
    windowsOf W (l.take (l.length / W * W)) = windowsOf W l :=
  windowsOf_take_full_aux W hW l.length l (le_refl _)

theorem windowsOf_restOf_append_aux (W : ℕ) (hW : 0 < W) : ∀ (n : ℕ) (u j : List (List ℚ)),
    u.length ≤ n →
    windowsOf W (u ++ j) = windowsOf W u ++ windowsOf W (restOf W u ++ j) ∧
    restOf W (u ++ j) = restOf W (restOf W u ++ j) := by
  intro n
  induction n with
  | zero =>
    intro u j h
    have hu : u = [] := List.eq_nil_of_length_eq_zero (Nat.le_zero.mp h)
    subst hu
    rw [restOf_small W [] (by simpa using hW), windowsOf_small W [] (by simpa using hW)]
    simp
  | succ n ih =>
    intro u j h
    by_cases hc : W ≤ u.length
    · have hcj : W ≤ (u ++ j).length := by
        rw [List.length_append]; omega
      have hIH := ih (u.drop W) j (by simp only [List.length_drop]; omega)
      constructor
      · rw [windowsOf_step W (u ++ j) hW hcj, List.take_append_of_le_length hc,
          List.drop_append_of_le_length hc, hIH.1,
          windowsOf_step W u hW hc, restOf_step W u hW hc, List.cons_append]
      · rw [restOf_step W (u ++ j) hW hcj, List.drop_append_of_le_length hc, hIH.2,
          restOf_step W u hW hc]
    · rw [windowsOf_small W u (by omega), restOf_small W u (by omega)]
      simp

theorem windowsOf_restOf_append (W : ℕ) (hW : 0 < W) (u j : List (List ℚ)) :
    windowsOf W (u ++ j) = windowsOf W u ++ windowsOf W (restOf W u ++ j) ∧
    restOf W (u ++ j) = restOf W (restOf W u ++ j) :=
  windowsOf_restOf_append_aux W hW u.length u j (le_refl _)

theorem entries_zero_nil (c : List (List ℚ)) (hsum : (c.map List.length).sum = 0)
    (hrows : ∀ r ∈ c, r ≠ []) : c = [] := by
  cases c with
  | nil => rfl
  | cons r rest =>
    have hr := hrows r (by simp)
    cases r with
    | nil => exact absurd rfl hr
    | cons x xs => simp at hsum

theorem foldl_streamStep_eq (W : ℕ) (hW : 0 < W) :
    ∀ (chunks : List (List (List ℚ))) (acc : List ℚ) (buf : List (List ℚ)),
      buf.length < W → (∀ c ∈ chunks, ∀ r ∈ c, r ≠ []) →
      chunks.foldl (streamStep W) (acc, buf) =
        (acc ++ windowsOf W (buf ++ chunks.flatten), restOf W (buf ++ chunks.flatten)) := by
  intro chunks
  induction chunks with
  | nil =>
    intro acc buf hbuf hrows
    rw [List.foldl_nil, show ([] : List (List (List ℚ))).flatten = [] from rfl,
      List.append_nil, windowsOf_small W buf hbuf, restOf_small W buf hbuf,
      List.append_nil]
  | cons c cs ih =>
    intro acc buf hbuf hrows
    rw [List.foldl_cons]
    by_cases hc : (c.map List.length).sum = 0
    · have hcnil : c = [] := entries_zero_nil c hc (hrows c (by simp))
      subst hcnil
      have hstep : streamStep W (acc, buf) [] = (acc, buf) := by
        simp [streamStep]
      rw [hstep, ih acc buf hbuf (fun d hd => hrows d (by simp [hd]))]
      simp only [List.flatten_cons, List.nil_append]
    · have hstep : streamStep W (acc, buf) c =
          (acc ++ windowsOf W (buf ++ c), restOf W (buf ++ c)) := by
        unfold streamStep
        rw [if_neg hc]
        simp only [popLoop_eq]
        rfl
      rw [hstep, ih _ _ (restOf_length_lt W hW (buf ++ c))
        (fun d hd => hrows d (by simp [hd]))]
      have hsplit := windowsOf_restOf_append W hW (buf ++ c) cs.flatten
      rw [List.append_assoc acc, ← hsplit.1, ← hsplit.2]
      simp only [List.flatten_cons, ← List.append_assoc]

theorem compute_rms_windows_eq (audio : List (List ℚ)) (fps : ℕ) (frame_ms : ℚ) :
    compute_rms_windows audio fps frame_ms =
      Except.ok (windowsOf (window_size fps frame_ms) audio,
        if audio.length / window_size fps frame_ms * window_size fps frame_ms = 0
        then frame_ms / 1000 else (window_size fps frame_ms : ℚ) / (fps : ℚ)) := by
  have hW := window_size_pos fps frame_ms
  unfold compute_rms_windows
  rw [if_neg (by omega)]
  by_cases h : audio.length / window_size fps frame_ms * window_size fps frame_ms = 0
  · rw [if_pos h, if_pos h]
    have hlt : audio.length < window_size fps frame_ms := by
      rcases Nat.mul_eq_zero.mp h with h1 | h2
      · exact (Nat.div_eq_zero_iff hW).mp h1
      · omega
    rw [windowsOf_small _ _ hlt]
  · rw [if_neg h, if_neg h]
    have hfull := windowsOf_take_full (window_size fps frame_ms) hW audio
    unfold windowsOf at hfull
    simp only [hfull]
    rfl

theorem compute_rms_windows_streaming_eq (chunks : List (List (List ℚ))) (fps : ℕ)
    (frame_ms : ℚ) (hrows : ∀ c ∈ chunks, ∀ r ∈ c, r ≠ []) :
    compute_rms_windows_streaming chunks fps frame_ms =
      Except.ok (windowsOf (window_size fps frame_ms) chunks.flatten,
        (window_size fps frame_ms : ℚ) / (fps : ℚ)) := by
  have hW := window_size_pos fps frame_ms
  unfold compute_rms_windows_streaming
  rw [if_neg (by omega)]
  rw [foldl_streamStep_eq (window_size fps frame_ms) hW chunks [] []
    (by simpa using hW) hrows]
  simp

theorem streamStep_buf_lt (W : ℕ) (hW : 0 < W) :
    ∀ (cs : List (List (List ℚ))) (st : List ℚ × List (List ℚ)),
      st.2.length < W → ((cs.foldl (streamStep W) st).2).length < W := by
  intro cs
  induction cs with
  | nil => intro st h; simpa using h
  | cons c cs ih =>
    intro st h
    rw [List.foldl_cons]
    apply ih
    unfold streamStep
    by_cases hc : (c.map List.length).sum = 0
    · rw [if_pos hc]; exact h
    · rw [if_neg hc]
      simp only [popLoop_eq]
      exact restOf_length_lt W hW (st.2 ++ c)

/-- Claim C3 (code_bug): the spec says the windowers fail with a configuration
error when frame_ms resolves to fewer than 1 sample per window, but the guard
window_size <= 0 sits after max(1, ...) and is unreachable: at fps = 1000 and
frame_ms = 0.1 (0.1 samples per window) both windowers silently clamp the
window size to 1 sample and proceed with the analysis. -/
theorem C3_thm :
    window_size 1000 (1 / 10) = 1 ∧
    compute_rms_windows [[1]] 1000 (1 / 10) = Except.ok ([1], 1 / 1000) ∧
    compute_rms_windows_streaming [[[1]]] 1000 (1 / 10) = Except.ok ([1], 1 / 1000) := by
  have hw : window_size 1000 (1 / 10) = 1 := by norm_num [window_size, pyInt]
  refine ⟨hw, ?_, ?_⟩
  · simp only [compute_rms_windows, hw]
    norm_num [toWindows, meanSq, sumSq, numEntries]
  · simp only [compute_rms_windows_streaming, hw]
    norm_num [streamStep, popLoop, meanSq, sumSq, numEntries]

/-- Claim C5 (corrected), counterexample: the number of samples per window is
not the rounding of sample_rate * frame_ms / 1000 clamped at 1: at
sample_rate = 1000 and frame_ms = 2.7 the code truncates 2.7 to 2 samples
while the claimed nearest-integer formula gives 3. -/
theorem C5_counterexample :
    window_size 1000 (27 / 10) = 2 ∧
    max 1 (round ((1000 : ℚ) * (27 / 10) / 1000)).toNat = 3 := by
  constructor
  · norm_num [window_size, pyInt]
    rfl
  · norm_num [round_eq]
    rfl

/-- Claim C5 (corrected, amended): for every sample rate and every nonnegative
frame_ms, the number of samples per window equals
max(1, floor(sample_rate * frame_ms / 1000)), the truncation (not the nearest
integer) of sample_rate * frame_ms / 1000, clamped below at 1. -/
theorem C5_amended_thm (fps : ℕ) (frame_ms : ℚ) (h : 0 ≤ frame_ms) :
    window_size fps frame_ms = max 1 (⌊(fps : ℚ) * frame_ms / 1000⌋).toNat := by
  unfold window_size pyInt
  rw [if_pos (mul_nonneg (Nat.cast_nonneg fps) (div_nonneg h (by norm_num))),
    mul_div_assoc]

theorem C5_witness :
    (0 : ℚ) ≤ 50 ∧ window_size 16000 50 = max 1 (⌊(16000 : ℚ) * 50 / 1000⌋).toNat :=
  ⟨by norm_num, C5_amended_thm 16000 50 (by norm_num)⟩

/-- Claim C7 (confirmed): for an input stream of N total sample rows (each row
a nonempty channel tuple) and window size W = window_size fps frame_ms, the
batch windower emits exactly floor(N / W) energy windows (the trailing
N mod W rows are dropped, never emitted as a short final window), and the
streaming windower over any chunk partition of the same rows emits the very
same window sequence. -/
theorem C7_thm (fps : ℕ) (frame_ms : ℚ) (chunks : List (List (List ℚ)))
    (audio : List (List ℚ)) (hjoin : chunks.flatten = audio)
    (hrows : ∀ c ∈ chunks, ∀ r ∈ c, r ≠ []) :
    ∃ rms rms2 d d2,
      compute_rms_windows audio fps frame_ms = Except.ok (rms, d) ∧
      compute_rms_windows_streaming chunks fps frame_ms = Except.ok (rms2, d2) ∧
      rms.length = audio.length / window_size fps frame_ms ∧
      rms2 = rms := by
  subst hjoin
  refine ⟨_, _, _, _, compute_rms_windows_eq _ _ _,
    compute_rms_windows_streaming_eq _ _ _ hrows, ?_, rfl⟩
  exact windowsOf_length _ (window_size_pos fps frame_ms) _

theorem C7_witness :
    ∃ rms rms2 d d2,
      compute_rms_windows [[1], [2], [3]] 1 2000 = Except.ok (rms, d) ∧
      compute_rms_windows_streaming [[[1]], [[2], [3]]] 1 2000 = Except.ok (rms2, d2) ∧
      rms.length = List.length [[(1 : ℚ)], [2], [3]] / window_size 1 2000 ∧
      rms2 = rms :=
  C7_thm 1 2000 [[[1]], [[2], [3]]] [[1], [2], [3]] rfl (by simp)

/-- Claim C9 (confirmed): the streaming windower's carry-over between chunks
is strictly smaller than one window: after folding the chunk loop over any
chunk sequence (hence after every chunk boundary, since every prefix is itself
a chunk sequence), the buffered remainder holds fewer than window_size sample
rows.  The buffered state therefore never grows with the stream length and the
stream is never materialized. -/
theorem C9_thm (fps : ℕ) (frame_ms : ℚ) (chunks : List (List (List ℚ))) :
    ((chunks.foldl (streamStep (window_size fps frame_ms)) ([], [])).2).length
      < window_size fps frame_ms := by
  exact streamStep_buf_lt (window_size fps frame_ms) (window_size_pos fps frame_ms)
    chunks ([], []) (by simpa using window_size_pos fps frame_ms)

/-- Claim C10 (corrected), counterexample: on the 2-D array [[0]] (one sample,
one channel) at fps = 1000 and frame_ms = 2.7 (window size 2), both windowers
emit the empty RMS sequence but the batch variant reports window duration
frame_ms / 1000 = 0.0027 while the streaming variant reports
window_size / fps = 0.002, so the returned window durations differ. -/
theorem C10_counterexample :
    compute_rms_windows [[0]] 1000 (27 / 10) = Except.ok ([], 27 / 10000) ∧
    compute_rms_windows_streaming [[[0]]] 1000 (27 / 10) = Except.ok ([], 1 / 500) ∧
    (1 / 500 : ℚ) < 27 / 10000 := by
  have hw : window_size 1000 (27 / 10) = 2 := by
    norm_num [window_size, pyInt]
    rfl
  refine ⟨?_, ?_, by norm_num⟩
  · simp only [compute_rms_windows, hw]
    norm_num
  · simp only [compute_rms_windows_streaming, hw]
    norm_num [streamStep, popLoop]

/-- Claim C10 (corrected, amended): for every 2-D sample array (rows with at
least one channel) and every partition of its rows into chunks, the streaming
windower produces exactly the RMS sequence of the batch windower; the window
durations also agree whenever at least one complete window fits, while on
shorter inputs the batch variant reports frame_ms / 1000 instead of
window_size / fps. -/
theorem C10_amended_thm (fps : ℕ) (frame_ms : ℚ) (chunks : List (List (List ℚ)))
    (hrows : ∀ c ∈ chunks, ∀ r ∈ c, r ≠ []) :
    ∃ rms d rms2 d2,
      compute_rms_windows chunks.flatten fps frame_ms = Except.ok (rms, d) ∧
      compute_rms_windows_streaming chunks fps frame_ms = Except.ok (rms2, d2) ∧
      rms2 = rms ∧
      (window_size fps frame_ms ≤ chunks.flatten.length → d2 = d) := by
  refine ⟨_, _, _, _, compute_rms_windows_eq _ _ _,
    compute_rms_windows_streaming_eq _ _ _ hrows, rfl, ?_⟩
  intro hle
  have hW := window_size_pos fps frame_ms
  have h1 : 1 ≤ chunks.flatten.length / window_size fps frame_ms :=
    (Nat.one_le_div_iff hW).mpr hle
  have hpos : 0 < chunks.flatten.length / window_size fps frame_ms * window_size fps frame_ms :=
    Nat.mul_pos (by omega) hW
  rw [if_neg (by omega)]

theorem C10_witness :
    ∃ rms d rms2 d2,
      compute_rms_windows (List.flatten [[[1]], [[2], [3]]]) 1 2000 = Except.ok (rms, d) ∧
      compute_rms_windows_streaming [[[(1 : ℚ)]], [[2], [3]]] 1 2000 = Except.ok (rms2, d2) ∧
      rms2 = rms ∧
      (window_size 1 2000 ≤ (List.flatten [[[(1 : ℚ)]], [[2], [3]]]).length → d2 = d) :=
  C10_amended_thm 1 2000 [[[1]], [[2], [3]]] (by simp)

theorem goodPts_append (duration s e : ℚ) (pts : List (ℚ × ℚ)) (h : GoodPts duration pts)
    (hs0 : 0 ≤ s) (hlen : 1 / 1000 < e - s) (hed : e ≤ duration)
    (hlast : ∀ q ∈ pts.getLast?, q.2 ≤ s) : GoodPts duration (pts ++ [(s, e)]) := by
  obtain ⟨hmem, hpw, hend⟩ := h
  have hse : s ≤ e := by linarith
  have hall : ∀ p ∈ pts, p.2 ≤ s := by
    intro p hp
    cases hq : pts.getLast? with
    | none =>
      rw [List.getLast?_eq_none_iff] at hq
      subst hq
      simp at hp
    | some q =>
      exact le_trans (hend q (Option.mem_def.mpr hq) p hp) (hlast q (Option.mem_def.mpr hq))
  refine ⟨?_, ?_, ?_⟩
  · intro p hp
    rcases List.mem_append.mp hp with h1 | h2
    · exact hmem p h1
    · rw [List.mem_singleton] at h2
      subst h2
      exact ⟨hs0, hlen, hed⟩
  · rw [List.pairwise_append]
    refine ⟨hpw, List.pairwise_singleton _ _, ?_⟩
    intro p hp x hx
    rw [List.mem_singleton] at hx
    subst hx
    exact hall p hp
  · intro q hq p hp
    rw [List.getLast?_concat] at hq
    have hq2 : q = (s, e) := by
      simpa using hq.symm
    subst hq2
    rcases List.mem_append.mp hp with h1 | h2
    · exact le_trans (hall p h1) hse
    · rw [List.mem_singleton] at h2
      subst h2
      exact le_refl _

theorem splitLoop_good (duration sp ep : ℚ) :
    ∀ (ss pts : List (ℚ × ℚ)) (prev : ℚ), GoodPts duration pts →
      GoodPts duration (splitLoop duration sp ep ss pts prev).1 := by
  intro ss
  induction ss with
  | nil => intro pts prev h; exact h
  | cons se rest ih =>
    intro pts prev h
    obtain ⟨s_start, s_end⟩ := se
    cases hq : pts.getLast? with
    | none =>
      simp only [splitLoop, hq]
      by_cases hg : 1 / 1000 <
          min duration (s_start + max 0 ep) - max 0 (prev - max 0 sp)
      · rw [if_pos hg]
        refine ih _ _ (goodPts_append _ _ _ _ h (le_max_left 0 _) hg (min_le_left _ _) ?_)
        intro q hqq
        rw [hq] at hqq
        simp at hqq
      · rw [if_neg hg]
        exact ih _ _ h
    | some p =>
      simp only [splitLoop, hq]
      by_cases hg : 1 / 1000 <
          min duration (s_start + max 0 ep) - max (max 0 (prev - max 0 sp)) p.2
      · rw [if_pos hg]
        refine ih _ _ (goodPts_append _ _ _ _ h
          (le_trans (le_max_left 0 _) (le_max_left _ _)) hg (min_le_left _ _) ?_)
        intro q hqq
        rw [hq] at hqq
        have : q = p := by simpa using hqq.symm
        subst this
        exact le_max_right _ _
      · rw [if_neg hg]
        exact ih _ _ h

theorem splitFinish_good (duration sp : ℚ) (st : List (ℚ × ℚ) × ℚ)
    (h : GoodPts duration st.1) : GoodPts duration (splitFinish duration sp st) := by
  obtain ⟨pts, prev⟩ := st
  simp only [splitFinish]
  by_cases hlt : prev < duration
  · rw [if_pos hlt]
    cases hq : pts.getLast? with
    | none =>
      simp only [hq]
      by_cases hg : 1 / 1000 < duration - max 0 (prev - max 0 sp)
      · rw [if_pos hg]
        refine goodPts_append _ _ _ _ h (le_max_left 0 _) hg (le_refl _) ?_
        intro q hqq
        rw [hq] at hqq
        simp at hqq
      · rw [if_neg hg]
        exact h
    | some p =>
      simp only [hq]
      by_cases hg : 1 / 1000 < duration - max (max 0 (prev - max 0 sp)) p.2
      · rw [if_pos hg]
        refine goodPts_append _ _ _ _ h
          (le_trans (le_max_left 0 _) (le_max_left _ _)) hg (le_refl _) ?_
        intro q hqq
        rw [hq] at hqq
        have : q = p := by simpa using hqq.symm
        subst this
        exact le_max_right _ _
      · rw [if_neg hg]
        exact h
  · rw [if_neg hlt]
    exact h

/-- Claim C6 (confirmed): for every total duration at least 0, every sorted
list of disjoint silence intervals and every choice of pads (including pads
large relative to the gaps), the list returned by split_points_from_silences
is sorted by start time, pairwise non-overlapping, and every returned segment
p satisfies 0 <= start, end - start > 1/1000 and end <= total_duration. -/
theorem C6_thm (duration start_pad end_pad : ℚ) (silences : List (ℚ × ℚ))
    (hd : 0 ≤ duration)
    (hsorted : silences.Pairwise (fun p q => p.2 ≤ q.1)) :
    (∀ p ∈ split_points_from_silences duration silences start_pad end_pad,
        0 ≤ p.1 ∧ 1 / 1000 < p.2 - p.1 ∧ p.2 ≤ duration) ∧
    (split_points_from_silences duration silences start_pad end_pad).Pairwise
        (fun p q => p.1 < q.1 ∧ p.2 ≤ q.1) := by
  have hgood : GoodPts duration (split_points_from_silences duration silences start_pad end_pad) := by
    unfold split_points_from_silences
    by_cases he : silences.isEmpty
    · rw [if_pos he]
      by_cases hg : min duration (duration + end_pad) - max 0 (0 - start_pad) ≤ 1 / 1000
      · rw [if_pos hg]
        exact ⟨by simp, List.Pairwise.nil, by simp⟩
      · rw [if_neg hg]
        refine ⟨?_, List.pairwise_singleton _ _, ?_⟩
        · intro p hp
          rw [List.mem_singleton] at hp
          subst hp
          exact ⟨le_max_left 0 _, not_le.mp hg, min_le_left _ _⟩
        · intro q hqq p hp
          simp only [List.getLast?_singleton] at hqq
          have hq2 : q = (max 0 (0 - start_pad), min duration (duration + end_pad)) := by
            simpa using hqq.symm
          rw [List.mem_singleton] at hp
          subst hq2
          subst hp
          exact le_refl _
    · rw [if_neg he]
      exact splitFinish_good _ _ _
        (splitLoop_good duration start_pad end_pad silences [] 0 ⟨by simp, List.Pairwise.nil, by simp⟩)
  obtain ⟨hmem, hpw, _⟩ := hgood
  refine ⟨hmem, hpw.imp_of_mem ?_⟩
  intro p q hp hq hpq
  have h1 := hmem p hp
  exact ⟨by linarith [h1.2.1], hpq⟩

theorem C6_witness :
    (0 : ℚ) ≤ 20 ∧
    ([((8 : ℚ), (14 : ℚ))].Pairwise (fun p q => p.2 ≤ q.1)) ∧
    ((∀ p ∈ split_points_from_silences 20 [(8, 14)] 100 100,
        0 ≤ p.1 ∧ 1 / 1000 < p.2 - p.1 ∧ p.2 ≤ 20) ∧
      (split_points_from_silences 20 [(8, 14)] 100 100).Pairwise
        (fun p q => p.1 < q.1 ∧ p.2 ≤ q.1)) :=
  ⟨by norm_num, List.pairwise_singleton _ _,
    C6_thm 20 100 100 [(8, 14)] (by norm_num) (List.pairwise_singleton _ _)⟩

theorem ivalSum_concat (l : List (ℚ × ℚ)) (a b : ℚ) :
    ivalSum (l ++ [(a, b)]) = ivalSum l + (b - a) := by
  simp [ivalSum]

theorem splitLoop_sum (duration : ℚ) :
    ∀ (ss pts : List (ℚ × ℚ)) (prev : ℚ),
      0 ≤ prev →
      (∀ q ∈ pts.getLast?, q.2 ≤ prev) →
      SilChain duration prev ss →
      GapsOK duration prev ss →
      ivalSum (splitFinish duration 0 (splitLoop duration 0 0 ss pts prev)) =
        ivalSum pts + (duration - prev) - ivalSum ss := by
  intro ss
  induction ss with
  | nil =>
    intro pts prev hprev hlast hchain hgaps
    simp only [splitLoop]
    simp only [GapsOK] at hgaps
    have hsum0 : ivalSum [] = 0 := rfl
    rcases hgaps with h0 | hpos
    · simp only [splitFinish]
      rw [if_neg (by linarith)]
      rw [hsum0]
      linarith
    · simp only [splitFinish]
      rw [if_pos (by linarith)]
      have hseg : max 0 (prev - max 0 (0 : ℚ)) = prev := by
        rw [max_self, sub_zero, max_eq_right hprev]
      cases hq : pts.getLast? with
      | none =>
        simp only [hq, hseg]
        rw [if_pos (by linarith)]
        rw [ivalSum_concat, hsum0]
        linarith
      | some p =>
        have hp2 : p.2 ≤ prev := hlast p (Option.mem_def.mpr hq)
        simp only [hq, hseg]
        rw [max_eq_left hp2]
        rw [if_pos (by linarith)]
        rw [ivalSum_concat, hsum0]
        linarith
  | cons se rest ih =>
    intro pts prev hprev hlast hchain hgaps
    obtain ⟨s, e⟩ := se
    simp only [SilChain] at hchain
    obtain ⟨hps, hsse, hed, hchain'⟩ := hchain
    simp only [GapsOK] at hgaps
    obtain ⟨hgap, hgaps'⟩ := hgaps
    have hsd : s ≤ duration := le_trans hsse hed
    have hpe : prev ≤ e := le_trans hps hsse
    have hseg_end : min duration (s + max 0 (0 : ℚ)) = s := by
      rw [max_self, add_zero, min_eq_right hsd]
    have hseg : max 0 (prev - max 0 (0 : ℚ)) = prev := by
      rw [max_self, sub_zero, max_eq_right hprev]
    have hmaxe : max prev e = e := max_eq_right hpe
    have hsume : ivalSum ((s, e) :: rest) = (e - s) + ivalSum rest := by
      simp [ivalSum]
    cases hq : pts.getLast? with
    | none =>
      simp only [splitLoop, hq, hseg_end, hseg, hmaxe]
      rcases hgap with h0 | hpos
      · rw [if_neg (by linarith)]
        rw [ih pts e (by linarith) (by rw [hq]; intro q hqq; simp at hqq) hchain' hgaps']
        rw [hsume]
        linarith
      · rw [if_pos (by linarith)]
        rw [ih (pts ++ [(prev, s)]) e (by linarith) ?_ hchain' hgaps']
        · rw [ivalSum_concat, hsume]
          linarith
        · intro q hqq
          rw [List.getLast?_concat] at hqq
          have : q = (prev, s) := by simpa using hqq.symm
          subst this
          exact hsse
    | some p =>
      have hp2 : p.2 ≤ prev := hlast p (Option.mem_def.mpr hq)
      simp only [splitLoop, hq, hseg_end, hseg, hmaxe]
      rw [max_eq_left hp2]
      rcases hgap with h0 | hpos
      · rw [if_neg (by linarith)]
        rw [ih pts e (by linarith) ?_ hchain' hgaps']
        · rw [hsume]
          linarith
        · intro q hqq
          rw [hq] at hqq
          have : q = p := by simpa using hqq.symm
          subst this
          linarith
      · rw [if_pos (by linarith)]
        rw [ih (pts ++ [(prev, s)]) e (by linarith) ?_ hchain' hgaps']
        · rw [ivalSum_concat, hsume]
          linarith
        · intro q hqq
          rw [List.getLast?_concat] at hqq
          have : q = (prev, s) := by simpa using hqq.symm
          subst this
          exact hsse

/-- Claim C1 (corrected), counterexample: with total_duration = 20, the single
silence (8, 14) inside [0, 20], and the nonnegative default pads
start_pad = 0.15 and end_pad = 0.25, the resolved segments are (0, 8.25) and
(13.85, 20), whose total length plus the silence duration is 20.4 = 102/5,
exceeding total_duration by 0.4 - far beyond any 1ms-scale tolerance. -/
theorem C1_counterexample :
    ivalSum (split_points_from_silences 20 [(8, 14)] (3 / 20) (1 / 4)) +
      ivalSum [((8 : ℚ), (14 : ℚ))] = 102 / 5 ∧
    (20 : ℚ) + 1 / 1000 < 102 / 5 := by
  constructor
  · norm_num [split_points_from_silences, splitLoop, splitFinish, ivalSum,
      min_def, max_def]
  · norm_num

/-- Claim C1 (corrected, amended): with zero pads, for every total_duration,
every silence list that is sorted, ordered and contained in
[0, total_duration], and in which every speech gap (leading, between
consecutive silences, and trailing) is either empty or longer than the 1e-3
minimum segment length, the total length of the segments returned by
split_points_from_silences plus the total silence duration equals
total_duration exactly.  (With positive pads the segments extend into the
silence interiors, so the identity fails; gaps in (0, 1e-3] are discarded by
the minimum-length check and would also break exactness.) -/
theorem C1_amended_thm (duration : ℚ) (silences : List (ℚ × ℚ))
    (hchain : SilChain duration 0 silences) (hgaps : GapsOK duration 0 silences) :
    ivalSum (split_points_from_silences duration silences 0 0) + ivalSum silences =
      duration := by
  cases silences with
  | nil =>
    simp only [GapsOK] at hgaps
    unfold split_points_from_silences
    rw [if_pos (show ([] : List (ℚ × ℚ)).isEmpty = true from rfl)]
    have h1 : max 0 (0 - (0 : ℚ)) = 0 := by norm_num
    have h2 : min duration (duration + (0 : ℚ)) = duration := by
      rw [add_zero, min_self]
    rw [h1, h2]
    rcases hgaps with h0 | hpos
    · rw [if_pos (by linarith)]
      show ivalSum [] + ivalSum [] = duration
      show 0 + 0 = duration
      linarith
    · rw [if_neg (by linarith)]
      show ivalSum [(0, duration)] + ivalSum [] = duration
      simp [ivalSum]
  | cons se rest =>
    unfold split_points_from_silences
    rw [if_neg (by simp)]
    rw [splitLoop_sum duration (se :: rest) [] 0 (le_refl 0)
      (by intro q hqq; simp at hqq) hchain hgaps]
    show 0 + (duration - 0) - ivalSum (se :: rest) + ivalSum (se :: rest) = duration
    ring

theorem C1_witness :
    SilChain 20 0 [(8, 14)] ∧ GapsOK 20 0 [(8, 14)] ∧
    ivalSum (split_points_from_silences 20 [(8, 14)] 0 0) + ivalSum [((8 : ℚ), (14 : ℚ))] = 20 := by
  have h1 : SilChain 20 0 [((8 : ℚ), (14 : ℚ))] := by
    simp only [SilChain]
    norm_num
  have h2 : GapsOK 20 0 [((8 : ℚ), (14 : ℚ))] := by
    simp only [GapsOK]
    norm_num
  exact ⟨h1, h2, C1_amended_thm 20 [(8, 14)] h1 h2⟩

theorem map_decide_all_true (rms : List ℚ) (thresh : ℚ) (h : ∀ r ∈ rms, r ≤ thresh) :
    rms.map (fun r => decide (r ≤ thresh)) = List.replicate rms.length true := by
  induction rms with
  | nil => rfl
  | cons r rs ih =>
    simp only [List.map_cons, List.length_cons, List.replicate_succ]
    rw [decide_eq_true (h r (by simp)), ih (fun x hx => h x (by simp [hx]))]

theorem groupRunsAux_rep_true (k : ℕ) : ∀ (l : List Bool) (i s : ℕ),
    groupRunsAux (List.replicate k true ++ l) i (some s) =
      groupRunsAux l (i + k) (some s) := by
  induction k with
  | zero => intro l i s; simp
  | succ k ih =>
    intro l i s
    rw [List.replicate_succ, List.cons_append]
    simp only [groupRunsAux, if_true]
    rw [ih]
    congr 1
    omega

theorem groupRunsAux_rep_false (k : ℕ) : ∀ (l : List Bool) (i : ℕ),
    groupRunsAux (List.replicate k false ++ l) i none =
      groupRunsAux l (i + k) none := by
  induction k with
  | zero => intro l i; simp
  | succ k ih =>
    intro l i
    rw [List.replicate_succ, List.cons_append]
    simp only [groupRunsAux, Bool.false_eq_true, if_false]
    rw [ih]
    have h2 : i + 1 + k = i + (k + 1) := by omega
    rw [h2]

theorem groupRunsAux_rep_true_nil (k i s : ℕ) :
    groupRunsAux (List.replicate k true) i (some s) = [(s, i + k)] := by
  have h := groupRunsAux_rep_true k [] i s
  rw [List.append_nil] at h
  rw [h]
  rfl

theorem detect_full_silence (rms : List ℚ) (win_sec min_silence_sec thresh gap : ℚ)
    (hne : rms ≠ []) (hall : ∀ r ∈ rms, r ≤ thresh)
    (hmin : (⌈min_silence_sec / win_sec⌉ : ℤ) ≤ (rms.length : ℤ)) :
    detect_silences_from_rms rms win_sec min_silence_sec thresh gap =
      [(0, (rms.length : ℚ) * win_sec)] := by
  obtain ⟨r0, rs, rfl⟩ : ∃ r0 rs, rms = r0 :: rs := by
    cases rms with
    | nil => exact absurd rfl hne
    | cons x xs => exact ⟨x, xs, rfl⟩
  unfold detect_silences_from_rms
  rw [if_neg (by simp)]
  rw [map_decide_all_true _ thresh hall]
  simp only [List.length_cons]
  rw [List.replicate_succ]
  simp only [groupRunsAux, if_true]
  rw [groupRunsAux_rep_true_nil]
  have harith : (0 : ℕ) + 1 + rs.length = rs.length + 1 := by omega
  rw [harith]
  have hkeep : (⌈min_silence_sec / win_sec⌉ : ℤ) ≤ (((rs.length + 1 : ℕ) : ℤ)) - ((0 : ℕ) : ℤ) := by
    simp only [List.length_cons] at hmin
    push_cast
    push_cast at hmin
    omega
  simp only [List.filter_cons, List.filter_nil, decide_eq_true_eq]
  rw [if_pos hkeep]
  simp only [mergeRunsAux, List.map_cons, List.map_nil]
  norm_num

theorem split_single_full (E : ℚ) (hE : 0 ≤ E) :
    split_points_from_silences E [(0, E)] 0 0 = [] := by
  unfold split_points_from_silences
  rw [if_neg (by simp)]
  simp only [splitLoop, List.getLast?_nil]
  have e1 : min E (0 + max 0 (0 : ℚ)) = 0 := by
    rw [max_self, add_zero, min_eq_right hE]
  have e2 : max (0 : ℚ) (0 - max 0 (0 : ℚ)) = 0 := by norm_num
  rw [e1, e2]
  rw [if_neg (by norm_num)]
  rw [max_eq_right hE]
  simp only [splitFinish]
  rw [if_neg (lt_irrefl E)]

/-- Claim C2 (corrected), counterexample: a fully silent stream of two 1-second
windows of RMS 0 at threshold 0.01 and min_silence_sec 2 yields the silence
run (0, 2) covering the whole analyzed timeline, but with the pipeline's
default pads start_pad = 0.15 and end_pad = 0.25 the resolver emits the
segment (0, 0.25) - one segment, not zero: the first candidate segment passes
the minimum-length check because of the end pad. -/
theorem C2_counterexample :
    detect_silences_from_rms [0, 0] 1 2 (1 / 100) (3 / 10) = [(0, 2)] ∧
    split_points_from_silences 2 [(0, 2)] (3 / 20) (1 / 4) = [(0, 1 / 4)] ∧
    (split_points_from_silences 2 [(0, 2)] (3 / 20) (1 / 4)).length = 1 := by
  refine ⟨?_, ?_, ?_⟩
  · have h := detect_full_silence [0, 0] 1 2 (1 / 100) (3 / 10) (by simp)
      (by intro r hr; simp at hr; norm_num [hr])
      (by norm_num)
    simpa using h
  · norm_num [split_points_from_silences, splitLoop, splitFinish, ivalSum,
      min_def, max_def]
  · norm_num [split_points_from_silences, splitLoop, splitFinish, ivalSum,
      min_def, max_def]

/-- Claim C2 (corrected, amended): for every nonempty window RMS sequence that
is everywhere at or below the silence threshold, with nonnegative window
duration and a stream at least ceil(min_silence_sec / win_sec) windows long,
the detected silence run covers the whole analyzed timeline, i.e.
detect_silences_from_rms returns exactly [(0, n * win_sec)]; and with zero
pads and total duration equal to that analyzed timeline,
split_points_from_silences returns zero segments (every candidate segment
fails the minimum-length check).  (With the pipeline's positive default pads,
or a total duration exceeding the analyzed timeline by more than 1e-3, a
segment is emitted, so the claim as stated fails.) -/
theorem C2_amended_thm (rms : List ℚ) (win_sec min_silence_sec thresh gap : ℚ)
    (hne : rms ≠ []) (hall : ∀ r ∈ rms, r ≤ thresh) (hwin : 0 ≤ win_sec)
    (hmin : (⌈min_silence_sec / win_sec⌉ : ℤ) ≤ (rms.length : ℤ)) :
    detect_silences_from_rms rms win_sec min_silence_sec thresh gap =
      [(0, (rms.length : ℚ) * win_sec)] ∧
    split_points_from_silences ((rms.length : ℚ) * win_sec)
      [(0, (rms.length : ℚ) * win_sec)] 0 0 = [] :=
  ⟨detect_full_silence rms win_sec min_silence_sec thresh gap hne hall hmin,
    split_single_full _ (mul_nonneg (Nat.cast_nonneg _) hwin)⟩

theorem C2_witness :
    ([(0 : ℚ), 0] ≠ []) ∧
    detect_silences_from_rms [0, 0] 1 2 0 (3 / 10) = [(0, ((2 : ℕ) : ℚ) * 1)] ∧
    split_points_from_silences (((2 : ℕ) : ℚ) * 1) [(0, ((2 : ℕ) : ℚ) * 1)] 0 0 = [] := by
  have h := C2_amended_thm [0, 0] 1 2 0 (3 / 10) (by simp)
    (by intro r hr; simp at hr; norm_num [hr])
    (by norm_num) (by norm_num)
  exact ⟨by simp, by simpa using h.1, by simpa using h.2⟩

theorem groupRuns_three_blocks (a g b : ℕ) (ha : 1 ≤ a) (hg : 1 ≤ g) (hb : 1 ≤ b) :
    groupRunsAux
        (List.replicate a true ++ List.replicate g false ++ List.replicate b true)
        0 none = [(0, a), (a + g, a + g + b)] := by
  obtain ⟨a', rfl⟩ : ∃ n, a = n + 1 := ⟨a - 1, by omega⟩
  obtain ⟨g', rfl⟩ : ∃ n, g = n + 1 := ⟨g - 1, by omega⟩
  obtain ⟨b', rfl⟩ : ∃ n, b = n + 1 := ⟨b - 1, by omega⟩
  rw [List.replicate_succ true, List.cons_append, List.cons_append]
  simp only [groupRunsAux, if_true]
  rw [List.append_assoc, groupRunsAux_rep_true]
  rw [List.replicate_succ false, List.cons_append]
  simp only [groupRunsAux, Bool.false_eq_true, if_false]
  rw [groupRunsAux_rep_false]
  rw [List.replicate_succ true]
  simp only [groupRunsAux, if_true]
  rw [groupRunsAux_rep_true_nil]
  have e1 : (0 : ℕ) + 1 + a' = a' + 1 := by omega
  rw [e1]
  have e2 : a' + 1 + 1 + g' = a' + 1 + (g' + 1) := by omega
  rw [e2]
  have e3 : a' + 1 + (g' + 1) + 1 + b' = a' + 1 + (g' + 1) + (b' + 1) := by omega
  rw [e3]

/-- Claim C8 (confirmed): for a window RMS sequence consisting of two silence
runs of a and b windows (value 0, at or below the nonnegative threshold)
separated by a gap of g non-silent windows (value threshold + 1), with both
runs surviving the minimum-duration filter, detect_silences_from_rms merges
the two runs into the single interval (0, (a+g+b) * win_sec) if and only if
g <= floor(merge_gap_sec / win_sec); a larger gap keeps them as the two
separate intervals (0, a * win_sec) and ((a+g) * win_sec, (a+g+b) * win_sec). -/
theorem C8_thm (a g b : ℕ) (win_sec min_silence_sec thresh gap : ℚ)
    (ha : 1 ≤ a) (hg : 1 ≤ g) (hb : 1 ≤ b) (hth : 0 ≤ thresh)
    (hma : (⌈min_silence_sec / win_sec⌉ : ℤ) ≤ (a : ℤ))
    (hmb : (⌈min_silence_sec / win_sec⌉ : ℤ) ≤ (b : ℤ)) :
    detect_silences_from_rms
        (List.replicate a 0 ++ List.replicate g (thresh + 1) ++ List.replicate b 0)
        win_sec min_silence_sec thresh gap =
      if (g : ℤ) ≤ ⌊gap / win_sec⌋ then
        [((0 : ℚ), ((a + g + b : ℕ) : ℚ) * win_sec)]
      else
        [((0 : ℚ), ((a : ℕ) : ℚ) * win_sec),
          (((a + g : ℕ) : ℚ) * win_sec, ((a + g + b : ℕ) : ℚ) * win_sec)] := by
  unfold detect_silences_from_rms
  have hne : (List.replicate a (0 : ℚ) ++ List.replicate g (thresh + 1) ++
      List.replicate b 0).isEmpty = false := by
    obtain ⟨a', rfl⟩ : ∃ n, a = n + 1 := ⟨a - 1, by omega⟩
    rw [List.replicate_succ, List.cons_append, List.cons_append]
    rfl
  rw [if_neg (by rw [hne]; exact Bool.false_ne_true)]
  simp only [List.map_append, List.map_replicate,
    decide_eq_true hth, decide_eq_false (by linarith : ¬ thresh + 1 ≤ thresh),
    groupRuns_three_blocks a g b ha hg hb]
  have h1 : (⌈min_silence_sec / win_sec⌉ : ℤ) ≤ ((a : ℕ) : ℤ) - ((0 : ℕ) : ℤ) := by
    push_cast
    omega
  have h2 : (⌈min_silence_sec / win_sec⌉ : ℤ) ≤
      ((a + g + b : ℕ) : ℤ) - ((a + g : ℕ) : ℤ) := by
    push_cast
    omega
  simp only [List.filter_cons, List.filter_nil, decide_eq_true_eq]
  rw [if_pos h1, if_pos h2]
  simp only [mergeRunsAux]
  have hgapcast : ((a + g : ℕ) : ℤ) - (((0, a) : ℕ × ℕ).2 : ℤ) = (g : ℤ) := by
    push_cast
    ring
  rw [hgapcast]
  by_cases hm : (g : ℤ) ≤ ⌊gap / win_sec⌋
  · rw [if_pos hm, if_pos hm]
    simp only [mergeRunsAux, List.map_cons, List.map_nil]
    norm_num
  · rw [if_neg hm, if_neg hm]
    simp only [mergeRunsAux, List.map_cons, List.map_nil]
    norm_num

theorem C8_witness :
    (1 ≤ 2 ∧ (0 : ℚ) ≤ 0 ∧ (⌈(2 : ℚ) / 1⌉ : ℤ) ≤ (2 : ℤ)) ∧
    detect_silences_from_rms
        (List.replicate 2 (0 : ℚ) ++ List.replicate 1 ((0 : ℚ) + 1) ++ List.replicate 2 0)
        1 2 0 1 = [((0 : ℚ), ((2 + 1 + 2 : ℕ) : ℚ) * 1)] := by
  refine ⟨⟨by norm_num, le_refl 0, by norm_num⟩, ?_⟩
  have h := C8_thm 2 1 2 1 2 0 1 (by norm_num) (by norm_num) (by norm_num)
    (le_refl 0) (by norm_num) (by norm_num)
  rw [h, if_pos (by norm_num)]

theorem process_file_ok (clip : AudioClip) (msil th fms gap : ℚ) (t : Option ℕ)
    (dr : Bool) (g : ArgsHolder) (v : List ℚ × ℚ)
    (h : compute_rms_windows_streaming clip.chunks
      (match t with
        | some n => if n = 0 then clip.fps else n
        | none => clip.fps) fms = Except.ok v) :
    process_file clip msil th fms gap t dr g =
      Except.ok (split_points_from_silences clip.duration
        (detect_silences_from_rms v.1 v.2 msil (th * th) gap)
        g.start_pad g.end_pad) := by
  unfold process_file
  dsimp only
  rw [h]

/-- Claim C4 (corrected), counterexample: two invocations of process_file with
identical explicit arguments and identical input audio but different
module-level args_holder values (end_pad 0 vs end_pad 1) produce different
segment boundaries, because process_file reads start_pad and end_pad from the
shared global args_holder (src/separate_audios.py lines 309-310), not from
its explicit arguments. -/
theorem C4_counterexample :
    process_file ⟨[[[1], [1], [1], [0], [0], [1], [1], [1]]], 8, 44100⟩
        2 (1 / 100) 1000 0 (some 1) false
        ⟨11 / 2, 1 / 100, 50, 3 / 10, 16000, 0, 0, false⟩ =
      Except.ok [(0, 3), (5, 8)] ∧
    process_file ⟨[[[1], [1], [1], [0], [0], [1], [1], [1]]], 8, 44100⟩
        2 (1 / 100) 1000 0 (some 1) false
        ⟨11 / 2, 1 / 100, 50, 3 / 10, 16000, 0, 1, false⟩ =
      Except.ok [(0, 4), (5, 8)] := by
  have hw : window_size 1 1000 = 1 := by norm_num [window_size, pyInt]
  have hs : compute_rms_windows_streaming
      [[[(1 : ℚ)], [1], [1], [0], [0], [1], [1], [1]]] 1 1000 =
      Except.ok ([1, 1, 1, 0, 0, 1, 1, 1], 1) := by
    simp only [compute_rms_windows_streaming, hw]
    norm_num [streamStep, popLoop, meanSq, sumSq, numEntries]
  have hth : (1 / 100 : ℚ) * (1 / 100) = 1 / 10000 := by norm_num
  have hdet : detect_silences_from_rms [1, 1, 1, 0, 0, 1, 1, 1] 1 2
      (1 / 10000) 0 = [(3, 5)] := by
    norm_num [detect_silences_from_rms, groupRunsAux, mergeRunsAux]
  have hsplit0 : split_points_from_silences 8 [(3, 5)] 0 0 = [(0, 3), (5, 8)] := by
    norm_num [split_points_from_silences, splitLoop, splitFinish, min_def, max_def]
  have hsplit1 : split_points_from_silences 8 [(3, 5)] 0 1 = [(0, 4), (5, 8)] := by
    norm_num [split_points_from_silences, splitLoop, splitFinish, min_def, max_def]
  constructor
  · rw [process_file_ok ⟨[[[1], [1], [1], [0], [0], [1], [1], [1]]], 8, 44100⟩
      2 (1 / 100) 1000 0 (some 1) false
      ⟨11 / 2, 1 / 100, 50, 3 / 10, 16000, 0, 0, false⟩
      ([1, 1, 1, 0, 0, 1, 1, 1], 1) hs]
    dsimp only
    rw [hth, hdet, hsplit0]
  · rw [process_file_ok ⟨[[[1], [1], [1], [0], [0], [1], [1], [1]]], 8, 44100⟩
      2 (1 / 100) 1000 0 (some 1) false
      ⟨11 / 2, 1 / 100, 50, 3 / 10, 16000, 0, 1, false⟩
      ([1, 1, 1, 0, 0, 1, 1, 1], 1) hs]
    dsimp only
    rw [hth, hdet, hsplit1]

/-- Claim C4 (corrected, amended): the segment boundaries computed by
process_file are determined by its explicit arguments, the input audio, and
exactly the start_pad and end_pad fields of the module-level args_holder
global: two invocations with identical explicit arguments and input whose
globals agree on start_pad and end_pad (but may differ in every other field,
and with any dry-run flags) produce identical boundaries. -/
theorem C4_amended_thm (clip : AudioClip) (msil th fms gap : ℚ) (t : Option ℕ)
    (dr1 dr2 : Bool) (g1 g2 : ArgsHolder)
    (hsp : g1.start_pad = g2.start_pad) (hep : g1.end_pad = g2.end_pad) :
    process_file clip msil th fms gap t dr1 g1 =
      process_file clip msil th fms gap t dr2 g2 := by
  unfold process_file
  rw [hsp, hep]

theorem C4_witness :
    ((⟨11 / 2, 1 / 100, 50, 3 / 10, 16000, 2, 3, false⟩ : ArgsHolder).start_pad =
      (⟨0, 0, 0, 0, 0, 2, 3, true⟩ : ArgsHolder).start_pad) ∧
    process_file ⟨[], 1, 5⟩ 1 1 1 1 none false
        ⟨11 / 2, 1 / 100, 50, 3 / 10, 16000, 2, 3, false⟩ =
      process_file ⟨[], 1, 5⟩ 1 1 1 1 none true ⟨0, 0, 0, 0, 0, 2, 3, true⟩ :=
  ⟨rfl, C4_amended_thm ⟨[], 1, 5⟩ 1 1 1 1 none false true
    ⟨11 / 2, 1 / 100, 50, 3 / 10, 16000, 2, 3, false⟩
    ⟨0, 0, 0, 0, 0, 2, 3, true⟩ rfl rfl⟩
